import Mathlib

/-!
Verification of the `wholesome_alpha` market-data reader (`alpha/Mkt/MkTreader.py`
and `reading_market_data.py`) against its natural-language specification.

The repository source contains the class `MkTreader` with its constructor
`__init__` and, nested inside the constructor, the text of the request function
`get` whose written body ends right after the symbol-argument type check.
Those parts are embedded below directly from the source.  The remaining
machinery described by the specification (instruction resolution, the
cache/fetch reconciler, composite-source fallback, the rate limiter, the gap
reporter) is absent from the source tree, so it is modelled from the
specification text; each such definition carries a doc comment starting with
`Modelled from the spec:`.
-/

/-- One calendar date's record for one symbol.  The field list follows the
columns the source declares: `self._col = ['open', 'high', 'low', 'close',
'volume', 'adjusted', 'divd', 'split']` together with the extra output columns
`source` and `recordDate` from `self._out_col` (the `symbol` column is carried
at table level).  Dates are abstracted as day ordinals (`Nat`); price fields
are abstracted as integers since no claim computes with their values. -/
structure PriceRow where
  date : Nat
  open_ : Int
  high : Int
  low : Int
  close : Int
  volume : Int
  adjusted : Int
  divd : Int
  split : Int
  source : String
  recordDate : Nat
deriving DecidableEq

/-- The dates of a list of rows, in list order. -/
def dates (l : List PriceRow) : List Nat := l.map PriceRow.date

/-- A fully resolved per-symbol instruction.  Its fields are exactly the
`get` call variables that the docstring allows as per-symbol instruction keys
(everything except `sdate`, `edate`, `calendar` and `output_format`):
`source`, `force`, `save`, `file_dir`, `file_format`, `api_key`, `param`,
`verbose`. -/
structure Instruction where
  source : String
  force : Bool
  save : Bool
  file_dir : String
  file_format : String
  api_key : Option String
  param : Option Nat
  verbose : Bool
deriving DecidableEq

/-- Per-symbol override: each instruction field may be present or absent.
Absent fields fall back to the generic (function-call) values. -/
structure InstructionOver where
  source : Option String
  force : Option Bool
  save : Option Bool
  file_dir : Option String
  file_format : Option String
  api_key : Option (Option String)
  param : Option (Option Nat)
  verbose : Option Bool
deriving DecidableEq

/-- The override with every field absent. -/
def InstructionOver.empty : InstructionOver :=
  ⟨none, none, none, none, none, none, none, none⟩

/-- Per-symbol request status, as reported by the gap reporter.  The
constructor `incomplete` renders the status the specification spells
"partial". -/
inductive Status where
  | complete
  | incomplete
  | failed
deriving DecidableEq

/-- The state of a freshly constructed `MkTreader` object, embedded from
`MkTreader.__init__` (src/alpha/Mkt/MkTreader.py lines 27-45).  Optional
fields model Python members initialised to `None`. -/
structure MkTreaderState where
  dsource : Option (List (String × Instruction))
  delta_time : Option Nat
  rout : Option (List PriceRow)
  rout_status : Option (List (String × Status))
  error_log : Option (List (String × List Nat))
  sdate : Option Nat
  edate : Option Nat
  _bday : Option (List Nat)
  _col : List String
  _out_col : List String
  _alphavantage_max_req_per_min : Nat

/-- Embedding of the constructor body: every public data member and the
internal date/calendar members are set to `None`; the column lists and the
alphavantage per-minute cap are set to their literal values. -/
def MkTreader.init : MkTreaderState :=
  ⟨none, none, none, none, none, none, none, none,
   ["open", "high", "low", "close", "volume", "adjusted", "divd", "split"],
   ["symbol"] ++
     ["open", "high", "low", "close", "volume", "adjusted", "divd", "split"] ++
     ["source", "recordDate"],
   5⟩

/-- The function names the class docstring advertises as public function
members (src/alpha/Mkt/MkTreader.py lines 11-15). -/
def docPublicFunctions : List String :=
  ["get", "get_request_status", "get_error_log"]

/-- The names of the `def`s that appear at class level in the source of
`MkTreader`.  In the source text, `def get` is indented inside the body of
`__init__` (column 8, same depth as the `self.…` assignments), so the only
class-level definition is `__init__` itself; `get_request_status` and
`get_error_log` are not defined anywhere in the file. -/
def mkTreaderClassLevelDefs : List String := ["__init__"]

/-- The names of the local `def`s nested inside the body of `__init__`. -/
def mkTreaderInitLocalDefs : List String := ["get"]

/-- The instance attributes a constructed `MkTreader` carries: the `self.…`
members assigned in `__init__`.  A nested local `def` does not become an
attribute of the object, so `get` is not among them. -/
def mkTreaderInstanceAttrs : List String :=
  ["dsource", "delta_time", "rout", "rout_status", "error_log",
   "sdate", "edate", "_bday", "_col", "_out_col",
   "_alphavantage_max_req_per_min"]

/-- The attributes callable or readable on a constructed `MkTreader`:
class-level methods plus instance attributes. -/
def mkTreaderObjectAttrs : List String :=
  mkTreaderClassLevelDefs ++ mkTreaderInstanceAttrs

/-- The symbol argument of `get` as received from Python: a single string,
a list of strings, or a value of any other runtime type (recorded by its
type name). -/
inductive SymbolArg where
  | str (s : String)
  | list (l : List String)
  | other (typeName : String)

/-- Outcome of the written body of `get`: either the symbol list was
normalised and control falls through the end of the written body, or a
warning was issued and an empty table was returned.  No constructor raises:
the embedding is total, mirroring that the source raises no exception on
this path. -/
inductive GetStep where
  | proceed (symbols : List String)
  | warned (warning : String) (result : List PriceRow)

/-- Embedding of the written body of `get`
(src/alpha/Mkt/MkTreader.py lines 184-189): a `str` symbol is wrapped in a
singleton list; a non-`str`, non-`list` symbol triggers `warnings.warn` and
`return pd.DataFrame()` (an empty table). -/
def MkTreader.get : SymbolArg → GetStep
  | .str s => .proceed [s]
  | .list l => .proceed l
  | .other typeName =>
      .warned ("Wrong symbol type: " ++ typeName ++ " must be str or a list of str") []

/-- Modelled from the spec: the instruction overlay (spec 4.1, and the `get`
docstring lines 95-101, whose implementation is absent from the source tree).
Missing values in a symbol's override are filled with the values of the
corresponding function-call variables. -/
def overlay (g : Instruction) (o : InstructionOver) : Instruction :=
  ⟨o.source.getD g.source, o.force.getD g.force, o.save.getD g.save,
   o.file_dir.getD g.file_dir, o.file_format.getD g.file_format,
   o.api_key.getD g.api_key, o.param.getD g.param, o.verbose.getD g.verbose⟩

/-- Modelled from the spec: the actual set of stock symbols is the union of
the `symbol` variable and the keys of the `source` dict. -/
def resolvedSymbolList (symbol : List String)
    (srcOver : List (String × InstructionOver)) : List String :=
  (symbol ++ srcOver.map Prod.fst).dedup

/-- Modelled from the spec: the instruction resolver (spec 4.1), absent from
the source tree.  Produces one fully resolved instruction per symbol of the
union, overlaying the generic instruction with the symbol's override when one
exists. -/
def resolveInstructions (symbol : List String) (generic : Instruction)
    (srcOver : List (String × InstructionOver)) : List (String × Instruction) :=
  (resolvedSymbolList symbol srcOver).map
    (fun s => (s, overlay generic ((List.lookup s srcOver).getD InstructionOver.empty)))

/-- Chronological comparison of rows. -/
def dateLe (a b : PriceRow) : Prop := a.date ≤ b.date

instance (a b : PriceRow) : Decidable (dateLe a b) :=
  inferInstanceAs (Decidable (a.date ≤ b.date))

instance : IsTotal PriceRow dateLe := ⟨fun a b => Nat.le_total a.date b.date⟩

instance : IsTrans PriceRow dateLe := ⟨fun _ _ _ h₁ h₂ => Nat.le_trans h₁ h₂⟩

/-- A well-formed series: strictly increasing dates (hence chronologically
sorted with no duplicate dates).  Both a cache file written by the program
and a provider response satisfy this. -/
def StrictByDate (l : List PriceRow) : Prop :=
  l.Pairwise (fun a b => a.date < b.date)

instance (l : List PriceRow) : Decidable (StrictByDate l) :=
  inferInstanceAs (Decidable (l.Pairwise _))

/-- Range membership test used by the reconciler. -/
def inR (s e : Nat) (r : PriceRow) : Bool := decide (s ≤ r.date ∧ r.date ≤ e)

/-- Modelled from the spec: a provider is a black box
`fetch(symbol, start, end) -> rows`; it is modelled by the list of rows the
provider holds for the symbol (`avail`), of which a fetch returns those in
the requested range. -/
def fetch (avail : List PriceRow) (s e : Nat) : List PriceRow :=
  avail.filter (inR s e)

/-- Earliest date present in a series (series are kept sorted, so this is
the head date). -/
def minDate (l : List PriceRow) : Nat := (dates l).head?.getD 0

/-- Latest date present in a series. -/
def maxDate (l : List PriceRow) : Nat := (dates l).getLast?.getD 0

/-- Modelled from the spec: union cache rows with newly fetched rows,
deduplicate by date (newly fetched wins on conflict) and sort
chronologically (spec 4.2 step 4). -/
def mergeFetched (cached fresh : List PriceRow) : List PriceRow :=
  List.insertionSort dateLe
    (cached.filter (fun r => decide (r.date ∉ dates fresh)) ++ fresh)

/-- Result of reconciling one symbol: the merged series, the rows newly
fetched from the provider, and the list of (start, end) ranges requested
from the provider. -/
structure ReconcileOut where
  rows : List PriceRow
  fetched : List PriceRow
  calls : List (Nat × Nat)
deriving DecidableEq

/-- Modelled from the spec: the sub-range refetch (spec 4.2 step 4): fetch
only the missing sub-ranges before cache-start and/or after cache-end
(clamped to the requested range), then merge with the in-range cache rows. -/
def refill (cache avail : List PriceRow) (s e : Nat) : ReconcileOut :=
  let cs := minDate cache
  let ce := maxDate cache
  let pre := if s < cs then fetch avail s (min (cs - 1) e) else []
  let post := if ce < e then fetch avail (max (ce + 1) s) e else []
  ⟨mergeFetched (cache.filter (inR s e)) (pre ++ post), pre ++ post,
    (if s < cs then [(s, min (cs - 1) e)] else []) ++
      (if ce < e then [(max (ce + 1) s, e)] else [])⟩

/-- Modelled from the spec: the cache/fetch reconciler for one symbol
(spec 4.2).  `force` skips the cache; an absent (empty) cache triggers a
full-range fetch; a cache whose earliest/latest dates cover `[s, e]` is used
without any provider call; otherwise only the missing sub-ranges are
fetched and merged. -/
def reconcile : Bool → List PriceRow → List PriceRow → Nat → Nat → ReconcileOut
  | true, _, avail, s, e => ⟨fetch avail s e, fetch avail s e, [(s, e)]⟩
  | false, cache, avail, s, e =>
      if cache = [] then ⟨fetch avail s e, fetch avail s e, [(s, e)]⟩
      else if minDate cache ≤ s ∧ e ≤ maxDate cache then
        ⟨cache.filter (inR s e), [], []⟩
      else refill cache avail s e

/-- Modelled from the spec: persistence (spec 4.4); with `save` true the
merged series overwrites the cache file when at least one row was newly
fetched, otherwise the cache file is left as it was. -/
def cacheAfterRun (cache : List PriceRow) (o : ReconcileOut) : List PriceRow :=
  if o.fetched = [] then cache else o.rows

/-- Modelled from the spec: the gap reporter (spec 4.3): the error log for a
symbol is the ordered list of expected business dates absent from the merged
series. -/
def gapReport (expected : List Nat) (rows : List PriceRow) : List Nat :=
  expected.filter (fun d => decide (d ∉ dates rows))

/-- Modelled from the spec: per-symbol status (spec 4.3 together with
spec 7: a symbol is "not treated as failure unless the series is entirely
empty").  An empty series is "failed"; otherwise "complete" when no expected
date is missing and "partial" (constructor `incomplete`) when some are. -/
def statusOf (rows : List PriceRow) (gaps : List Nat) : Status :=
  if rows = [] then .failed else if gaps = [] then .complete else .incomplete

/-- Modelled from the spec: composite sources such as "alphavantage_yahoo"
(spec 4.2): try the primary provider first, and for exactly the dates the
primary fails to return, query the fallback (yahoo) over the same range. -/
def fetchFallback (primAvail fbAvail : List PriceRow) (s e : Nat) : List PriceRow :=
  List.insertionSort dateLe
    (fetch primAvail s e ++
      (fetch fbAvail s e).filter
        (fun r => decide (r.date ∉ dates (fetch primAvail s e))))

/-- Modelled from the spec: the rate limiter for the per-minute-capped
provider (spec 4.2 and 5).  Requests are issued in batches of `m` per
minute: the i-th request (0-based) is issued at second `(i / m) * 60`, the
limiter blocking until the next minute slot opens instead of dropping
requests.  The cap `m` is the `max_req_per_min` value, whose default is the
source constant `self._alphavantage_max_req_per_min = 5`. -/
def requestTimes (n m : Nat) : List Nat :=
  (List.range n).map (fun i => i / m * 60)

/-- Claim C10: Immediately after constructing a MkTreader and before any request,
every public data member — dsource, delta_time, rout, rout_status,
error_log — as well as the internal sdate, edate and business-day calendar,
is None; a fresh reader carries no state from any prior run. -/
theorem mkTreader_init_all_none :
    MkTreader.init.dsource = none ∧
    MkTreader.init.delta_time = none ∧
    MkTreader.init.rout = none ∧
    MkTreader.init.rout_status = none ∧
    MkTreader.init.error_log = none ∧
    MkTreader.init.sdate = none ∧
    MkTreader.init.edate = none ∧
    MkTreader.init._bday = none := by
  refine ⟨rfl, rfl, rfl, rfl, rfl, rfl, rfl, rfl⟩

/-- Claim C1: the class docstring advertises `get`, `get_request_status` and
`get_error_log` as public function members callable on a constructed
`MkTreader`, but none of the three is an attribute of a constructed object:
`get` is only a local function nested inside `__init__`, and the two
accessors are never defined.  This theorem evaluates the embedded class
surface at the failing input (attribute lookup of each advertised name). -/
theorem mkTreader_public_surface_missing :
    docPublicFunctions = ["get", "get_request_status", "get_error_log"] ∧
    "get" ∉ mkTreaderObjectAttrs ∧
    "get_request_status" ∉ mkTreaderObjectAttrs ∧
    "get_error_log" ∉ mkTreaderObjectAttrs ∧
    "get" ∈ mkTreaderInitLocalDefs := by
  decide

/-- Claim C2: for every symbol argument that is neither a single string nor a list,
the written body of `get` issues a warning and returns an empty table; the
embedding returns normally (no exception constructor exists on this path),
so the failure is non-fatal. -/
theorem get_bad_symbol_warns_empty (typeName : String) :
    MkTreader.get (.other typeName) =
      .warned ("Wrong symbol type: " ++ typeName ++ " must be str or a list of str") [] :=
  rfl

lemma resolveInstructions_map_fst (symbol : List String) (generic : Instruction)
    (srcOver : List (String × InstructionOver)) :
    (resolveInstructions symbol generic srcOver).map Prod.fst =
      resolvedSymbolList symbol srcOver := by
  simp [resolveInstructions, List.map_map, Function.comp_def]

/-- Claim C3: instruction resolution yields exactly one fully-resolved instruction
per symbol; the resolved symbol set is the union of the explicit symbol list
and the override keys; every field absent from a symbol's override takes the
generic (function-call) value, and a symbol with no override gets exactly the
generic instruction. -/
theorem instruction_resolution (symbol : List String) (generic : Instruction)
    (srcOver : List (String × InstructionOver)) :
    ((resolveInstructions symbol generic srcOver).map Prod.fst).Nodup ∧
    (∀ s, s ∈ (resolveInstructions symbol generic srcOver).map Prod.fst ↔
      s ∈ symbol ∨ s ∈ srcOver.map Prod.fst) ∧
    (∀ s i, (s, i) ∈ resolveInstructions symbol generic srcOver →
      i = overlay generic ((List.lookup s srcOver).getD InstructionOver.empty)) ∧
    overlay generic InstructionOver.empty = generic ∧
    (∀ o : InstructionOver,
      (o.source = none → (overlay generic o).source = generic.source) ∧
      (o.force = none → (overlay generic o).force = generic.force) ∧
      (o.save = none → (overlay generic o).save = generic.save) ∧
      (o.file_dir = none → (overlay generic o).file_dir = generic.file_dir) ∧
      (o.file_format = none → (overlay generic o).file_format = generic.file_format) ∧
      (o.api_key = none → (overlay generic o).api_key = generic.api_key) ∧
      (o.param = none → (overlay generic o).param = generic.param) ∧
      (o.verbose = none → (overlay generic o).verbose = generic.verbose)) := by
  refine ⟨?_, ?_, ?_, rfl, ?_⟩
  · rw [resolveInstructions_map_fst]
    exact List.nodup_dedup (symbol ++ srcOver.map Prod.fst)
  · intro s
    rw [resolveInstructions_map_fst]
    simp [resolvedSymbolList, List.mem_dedup, List.mem_append]
  · intro s i hmem
    rcases List.mem_map.mp hmem with ⟨a, _, hpair⟩
    rcases Prod.mk.injEq .. ▸ hpair with ⟨hs, hi⟩
    subst hs
    exact hi.symm
  · intro o
    refine ⟨?_, ?_, ?_, ?_, ?_, ?_, ?_, ?_⟩ <;>
      (intro h; simp [overlay, h])

/-- Claim C3 witness: for symbol list `["SRET"]`, a generic instruction and one
override for `"AAPL"`, the resolved set contains `"AAPL"` and an absent
`force` field falls back to the generic value. -/
theorem instruction_resolution_witness :
    ("AAPL" ∈ (resolveInstructions ["SRET"]
        ⟨"yahoo", false, true, "outDir", "csv", none, none, true⟩
        [("AAPL", ⟨some "eodhistoricaldata", none, none, none, none, none, none, some true⟩)]).map
        Prod.fst) ∧
    (overlay ⟨"yahoo", false, true, "outDir", "csv", none, none, true⟩
        ⟨some "eodhistoricaldata", none, none, none, none, none, none, some true⟩).force = false := by
  have h := instruction_resolution ["SRET"]
    ⟨"yahoo", false, true, "outDir", "csv", none, none, true⟩
    [("AAPL", ⟨some "eodhistoricaldata", none, none, none, none, none, none, some true⟩)]
  exact ⟨(h.2.1 "AAPL").mpr (Or.inr (by decide)),
    (h.2.2.2.2 ⟨some "eodhistoricaldata", none, none, none, none, none, none, some true⟩).2.1 rfl⟩

lemma mem_fetch {avail : List PriceRow} {s e : Nat} {r : PriceRow} :
    r ∈ fetch avail s e ↔ r ∈ avail ∧ s ≤ r.date ∧ r.date ≤ e := by
  simp [fetch, inR, List.mem_filter]

lemma fetch_strict {avail : List PriceRow} {s e : Nat} (hA : StrictByDate avail) :
    StrictByDate (fetch avail s e) :=
  hA.sublist (List.filter_sublist _)

lemma dates_pairwise {l : List PriceRow} (h : StrictByDate l) :
    (dates l).Pairwise (· < ·) := by
  rw [dates, List.pairwise_map]
  exact h

lemma dates_nodup {l : List PriceRow} (h : StrictByDate l) : (dates l).Nodup :=
  (dates_pairwise h).imp (fun hlt => Nat.ne_of_lt hlt)

lemma sorted_le_of_strict {l : List PriceRow} (h : StrictByDate l) :
    List.Sorted dateLe l :=
  h.imp (fun hlt => Nat.le_of_lt hlt)

lemma strict_of_sorted_nodup {l : List PriceRow} (hs : List.Sorted dateLe l)
    (hn : (dates l).Nodup) : StrictByDate l := by
  have hne : l.Pairwise (fun a b : PriceRow => a.date ≠ b.date) :=
    List.pairwise_map.mp hn
  exact (hs.and hne).imp (fun h => Nat.lt_of_le_of_ne h.1 h.2)

lemma mem_dates {l : List PriceRow} {d : Nat} :
    d ∈ dates l ↔ ∃ r ∈ l, r.date = d := by
  simp [dates, List.mem_map]

lemma head_getD_le {ds : List Nat} (h : ds.Pairwise (· < ·)) :
    ∀ d ∈ ds, ds.head?.getD 0 ≤ d := by
  intro d hd
  cases ds with
  | nil => cases hd
  | cons a t =>
      rcases List.mem_cons.mp hd with rfl | ht
      · exact Nat.le_refl _
      · exact Nat.le_of_lt ((List.pairwise_cons.mp h).1 d ht)

lemma le_getLast_getD {ds : List Nat} (h : ds.Pairwise (· < ·)) :
    ∀ d ∈ ds, d ≤ ds.getLast?.getD 0 := by
  induction ds with
  | nil => intro d hd; cases hd
  | cons a t ih =>
      intro d hd
      cases t with
      | nil =>
          rcases List.mem_cons.mp hd with rfl | ht
          · exact Nat.le_refl _
          · cases ht
      | cons b t₂ =>
          rw [List.getLast?_cons_cons]
          have htail := (List.pairwise_cons.mp h).2
          rcases List.mem_cons.mp hd with rfl | ht
          · have hab : d < b := (List.pairwise_cons.mp h).1 b (List.mem_cons_self b t₂)
            have hb := ih htail b (List.mem_cons_self b t₂)
            exact Nat.le_trans (Nat.le_of_lt hab) hb
          · exact ih htail d ht

lemma minDate_le {l : List PriceRow} {r : PriceRow} (h : StrictByDate l)
    (hr : r ∈ l) : minDate l ≤ r.date :=
  head_getD_le (dates_pairwise h) r.date (List.mem_map_of_mem PriceRow.date hr)

lemma le_maxDate {l : List PriceRow} {r : PriceRow} (h : StrictByDate l)
    (hr : r ∈ l) : r.date ≤ maxDate l :=
  le_getLast_getD (dates_pairwise h) r.date (List.mem_map_of_mem PriceRow.date hr)

lemma minDate_le_maxDate {l : List PriceRow} (h : StrictByDate l)
    (hne : l ≠ []) : minDate l ≤ maxDate l := by
  rcases List.exists_mem_of_ne_nil l hne with ⟨r, hr⟩
  exact Nat.le_trans (minDate_le h hr) (le_maxDate h hr)

lemma mem_mergeFetched {c f : List PriceRow} {r : PriceRow} :
    r ∈ mergeFetched c f ↔ (r ∈ c ∧ r.date ∉ dates f) ∨ r ∈ f := by
  simp [mergeFetched, List.mem_append, List.mem_filter]

lemma mergeFetched_sorted (c f : List PriceRow) :
    List.Sorted dateLe (mergeFetched c f) :=
  List.sorted_insertionSort dateLe _

lemma mergeFetched_perm (c f : List PriceRow) :
    List.Perm (mergeFetched c f)
      (c.filter (fun r => decide (r.date ∉ dates f)) ++ f) :=
  List.perm_insertionSort dateLe _

lemma mergeFetched_dates_nodup {c f : List PriceRow} (hc : (dates c).Nodup)
    (hf : (dates f).Nodup) : (dates (mergeFetched c f)).Nodup := by
  have hperm := (mergeFetched_perm c f).map PriceRow.date
  rw [dates, List.Perm.nodup_iff hperm, List.map_append, List.nodup_append]
  refine ⟨?_, hf, ?_⟩
  · exact hc.sublist ((List.filter_sublist _).map _)
  · intro d hd1 hd2
    rcases List.mem_map.mp hd1 with ⟨r, hrmem, rfl⟩
    have hnot := (List.mem_filter.mp hrmem).2
    simp only [decide_eq_true_eq] at hnot
    exact hnot hd2

lemma reconcile_force (cache avail : List PriceRow) (s e : Nat) :
    reconcile true cache avail s e =
      ⟨fetch avail s e, fetch avail s e, [(s, e)]⟩ := rfl

lemma reconcile_nil {cache : List PriceRow} (avail : List PriceRow) (s e : Nat)
    (h : cache = []) :
    reconcile false cache avail s e =
      ⟨fetch avail s e, fetch avail s e, [(s, e)]⟩ := by
  simp only [reconcile]
  rw [if_pos h]

lemma reconcile_covered {cache : List PriceRow} (avail : List PriceRow)
    {s e : Nat} (hne : cache ≠ []) (hcov : minDate cache ≤ s ∧ e ≤ maxDate cache) :
    reconcile false cache avail s e = ⟨cache.filter (inR s e), [], []⟩ := by
  simp only [reconcile]
  rw [if_neg hne, if_pos hcov]

lemma reconcile_refill {cache : List PriceRow} (avail : List PriceRow)
    {s e : Nat} (hne : cache ≠ [])
    (hncov : ¬(minDate cache ≤ s ∧ e ≤ maxDate cache)) :
    reconcile false cache avail s e = refill cache avail s e := by
  simp only [reconcile]
  rw [if_neg hne, if_neg hncov]

lemma refill_fetched (cache avail : List PriceRow) (s e : Nat) :
    (refill cache avail s e).fetched =
      (if s < minDate cache then fetch avail s (min (minDate cache - 1) e) else []) ++
        (if maxDate cache < e then fetch avail (max (maxDate cache + 1) s) e else []) :=
  rfl

lemma refill_rows (cache avail : List PriceRow) (s e : Nat) :
    (refill cache avail s e).rows =
      mergeFetched (cache.filter (inR s e)) ((refill cache avail s e).fetched) :=
  rfl

lemma refill_calls (cache avail : List PriceRow) (s e : Nat) :
    (refill cache avail s e).calls =
      (if s < minDate cache then [(s, min (minDate cache - 1) e)] else []) ++
        (if maxDate cache < e then [(max (maxDate cache + 1) s, e)] else []) :=
  rfl

lemma refill_fetched_bounds {cache avail : List PriceRow} {s e : Nat} {r : PriceRow}
    (hr : r ∈ (refill cache avail s e).fetched) :
    (s ≤ r.date ∧ r.date ≤ e) ∧
      (r.date < minDate cache ∨ maxDate cache < r.date) := by
  rw [refill_fetched] at hr
  rcases List.mem_append.mp hr with hpre | hpost
  · by_cases hc : s < minDate cache
    · rw [if_pos hc] at hpre
      rcases mem_fetch.mp hpre with ⟨_, h1, h2⟩
      have h2e : r.date ≤ e := Nat.le_trans h2 (Nat.min_le_right _ _)
      have h2c : r.date ≤ minDate cache - 1 := Nat.le_trans h2 (Nat.min_le_left _ _)
      exact ⟨⟨h1, h2e⟩, Or.inl (Nat.lt_of_le_of_lt h2c (Nat.sub_lt (Nat.lt_of_le_of_lt (Nat.zero_le s) hc) Nat.one_pos))⟩
    · rw [if_neg hc] at hpre
      cases hpre
  · by_cases hc : maxDate cache < e
    · rw [if_pos hc] at hpost
      rcases mem_fetch.mp hpost with ⟨_, h1, h2⟩
      have h1s : s ≤ r.date := Nat.le_trans (Nat.le_max_right _ _) h1
      have h1c : maxDate cache + 1 ≤ r.date := Nat.le_trans (Nat.le_max_left _ _) h1
      exact ⟨⟨h1s, h2⟩, Or.inr h1c⟩
    · rw [if_neg hc] at hpost
      cases hpost

lemma refill_fetched_dates_nodup {cache avail : List PriceRow} {s e : Nat}
    (hA : StrictByDate avail) (hC : StrictByDate cache) (hne : cache ≠ []) :
    (dates (refill cache avail s e).fetched).Nodup := by
  rw [refill_fetched, dates, List.map_append, List.nodup_append]
  refine ⟨?_, ?_, ?_⟩
  · by_cases hc : s < minDate cache
    · rw [if_pos hc]
      exact dates_nodup (fetch_strict hA)
    · rw [if_neg hc]
      exact List.nodup_nil
  · by_cases hc : maxDate cache < e
    · rw [if_pos hc]
      exact dates_nodup (fetch_strict hA)
    · rw [if_neg hc]
      exact List.nodup_nil
  · intro d hd1 hd2
    by_cases hc1 : s < minDate cache
    · rw [if_pos hc1] at hd1
      by_cases hc2 : maxDate cache < e
      · rw [if_pos hc2] at hd2
        rcases List.mem_map.mp hd1 with ⟨r, hr, rfl⟩
        rcases List.mem_map.mp hd2 with ⟨q, hq, hqd⟩
        rcases mem_fetch.mp hr with ⟨_, _, hr2⟩
        rcases mem_fetch.mp hq with ⟨_, hq1, _⟩
        have hrlt : r.date < minDate cache :=
          Nat.lt_of_le_of_lt (Nat.le_trans hr2 (Nat.min_le_left _ _))
            (Nat.sub_lt (Nat.lt_of_le_of_lt (Nat.zero_le s) hc1) Nat.one_pos)
        have hqgt : maxDate cache < q.date :=
          Nat.lt_of_lt_of_le (Nat.lt_succ_self _) (Nat.le_trans (Nat.le_max_left _ _) hq1)
        have hcc : minDate cache ≤ maxDate cache := minDate_le_maxDate hC hne
        have : r.date < q.date :=
          Nat.lt_of_lt_of_le hrlt (Nat.le_trans hcc (Nat.le_of_lt hqgt))
        exact absurd hqd (Nat.ne_of_gt this)
      · rw [if_neg hc2] at hd2
        cases hd2
    · rw [if_neg hc1] at hd1
      cases hd1

lemma filter_inR_subset_range {l : List PriceRow} {s e : Nat} {r : PriceRow}
    (hr : r ∈ l.filter (inR s e)) : r ∈ l ∧ s ≤ r.date ∧ r.date ≤ e := by
  have h := List.mem_filter.mp hr
  refine ⟨h.1, ?_⟩
  have := h.2
  simp only [inR, decide_eq_true_eq] at this
  exact this

/-- Core invariants of the reconciler, shared by several claims: the merged
series has no duplicate dates, stays within the requested range, is sorted
chronologically, and contains every newly fetched row. -/
lemma reconcile_inv (force : Bool) (cache avail : List PriceRow) (s e : Nat)
    (hC : StrictByDate cache) (hA : StrictByDate avail) :
    (dates (reconcile force cache avail s e).rows).Nodup ∧
    (∀ r ∈ (reconcile force cache avail s e).rows, s ≤ r.date ∧ r.date ≤ e) ∧
    List.Sorted dateLe (reconcile force cache avail s e).rows ∧
    (∀ r ∈ (reconcile force cache avail s e).fetched,
      r ∈ (reconcile force cache avail s e).rows) := by
  cases force with
  | true =>
      rw [reconcile_force]
      exact ⟨dates_nodup (fetch_strict hA),
        fun r hr => (mem_fetch.mp hr).2,
        sorted_le_of_strict (fetch_strict hA),
        fun r hr => hr⟩
  | false =>
      by_cases hnil : cache = []
      · rw [reconcile_nil avail s e hnil]
        exact ⟨dates_nodup (fetch_strict hA),
          fun r hr => (mem_fetch.mp hr).2,
          sorted_le_of_strict (fetch_strict hA),
          fun r hr => hr⟩
      · by_cases hcov : minDate cache ≤ s ∧ e ≤ maxDate cache
        · rw [reconcile_covered avail hnil hcov]
          refine ⟨dates_nodup (hC.sublist (List.filter_sublist _)),
            fun r hr => (filter_inR_subset_range hr).2,
            sorted_le_of_strict (fetch_strict hC),
            fun r hr => by cases hr⟩
        · rw [reconcile_refill avail hnil hcov]
          have hkeep : StrictByDate (cache.filter (inR s e)) :=
            hC.sublist (List.filter_sublist _)
          have hfn : (dates (refill cache avail s e).fetched).Nodup :=
            refill_fetched_dates_nodup hA hC hnil
          refine ⟨?_, ?_, ?_, ?_⟩
          · rw [refill_rows]
            exact mergeFetched_dates_nodup (dates_nodup hkeep) hfn
          · rw [refill_rows]
            intro r hr
            rcases mem_mergeFetched.mp hr with ⟨hrc, _⟩ | hrf
            · exact (filter_inR_subset_range hrc).2
            · exact (refill_fetched_bounds hrf).1
          · rw [refill_rows]
            exact mergeFetched_sorted _ _
          · rw [refill_rows]
            intro r hr
            exact mem_mergeFetched.mpr (Or.inr hr)

/-- Claim C5: for every symbol the merged series contains no duplicate dates, every
date falls within the requested range, the rows are sorted chronologically,
and every newly fetched row is present in the merged series and is the unique
row at its date — so on a date present in both cache and newly fetched data
the newly fetched row wins. -/
theorem merged_series_invariants (force : Bool) (cache avail : List PriceRow)
    (s e : Nat) (hC : StrictByDate cache) (hA : StrictByDate avail) :
    (dates (reconcile force cache avail s e).rows).Nodup ∧
    (∀ r ∈ (reconcile force cache avail s e).rows, s ≤ r.date ∧ r.date ≤ e) ∧
    List.Sorted dateLe (reconcile force cache avail s e).rows ∧
    (∀ r ∈ (reconcile force cache avail s e).fetched,
      r ∈ (reconcile force cache avail s e).rows ∧
        ∀ q ∈ (reconcile force cache avail s e).rows, q.date = r.date → q = r) := by
  obtain ⟨h1, h2, h3, h4⟩ := reconcile_inv force cache avail s e hC hA
  refine ⟨h1, h2, h3, fun r hr => ⟨h4 r hr, fun q hq hdq => ?_⟩⟩
  exact List.inj_on_of_nodup_map h1 hq (h4 r hr) hdq

/-- Claim C5 witness: a concrete sub-range refetch. -/
theorem merged_series_invariants_witness :
    (dates (reconcile false
      [⟨1, 0, 0, 0, 0, 0, 0, 0, 0, "cache", 0⟩]
      [⟨2, 0, 0, 0, 0, 0, 0, 0, 0, "yahoo", 0⟩] 1 2).rows).Nodup :=
  (merged_series_invariants false
    [⟨1, 0, 0, 0, 0, 0, 0, 0, 0, "cache", 0⟩]
    [⟨2, 0, 0, 0, 0, 0, 0, 0, 0, "yahoo", 0⟩] 1 2 (by decide) (by decide)).1

/-- Claim C4 counterexample: both parts of the claim fail as stated, at
concrete inputs.  First part: with a readable cache whose rows at dates
1, 2, 3 cover the requested range [2, 3], no provider call is made, but the
merged series is the cache restricted to the range rather than the cached
rows used as-is — the cache row at date 1 is dropped.  Second part: with a
well-formed sparse cache holding rows at dates 1 and 5 only, the request
range [3, 10], and a provider holding rows at dates 4 and 8, only the
sub-range after cache-end is fetched; the provider's row at date 4 lies
inside the cached hull and is never requested, so the requested,
provider-available date 4 is absent from the result — the result does not
cover the full requested range. -/
theorem cache_covered_rows_ne_cache :
    ((reconcile false
        [⟨1, 0, 0, 0, 0, 0, 0, 0, 0, "cache", 0⟩,
         ⟨2, 0, 0, 0, 0, 0, 0, 0, 0, "cache", 0⟩,
         ⟨3, 0, 0, 0, 0, 0, 0, 0, 0, "cache", 0⟩] [] 2 3).calls = [] ∧
      (reconcile false
        [⟨1, 0, 0, 0, 0, 0, 0, 0, 0, "cache", 0⟩,
         ⟨2, 0, 0, 0, 0, 0, 0, 0, 0, "cache", 0⟩,
         ⟨3, 0, 0, 0, 0, 0, 0, 0, 0, "cache", 0⟩] [] 2 3).rows ≠
        [⟨1, 0, 0, 0, 0, 0, 0, 0, 0, "cache", 0⟩,
         ⟨2, 0, 0, 0, 0, 0, 0, 0, 0, "cache", 0⟩,
         ⟨3, 0, 0, 0, 0, 0, 0, 0, 0, "cache", 0⟩]) ∧
    (StrictByDate
        [⟨1, 0, 0, 0, 0, 0, 0, 0, 0, "cache", 0⟩,
         ⟨5, 0, 0, 0, 0, 0, 0, 0, 0, "cache", 0⟩] ∧
      StrictByDate
        [⟨4, 0, 0, 0, 0, 0, 0, 0, 0, "yahoo", 0⟩,
         ⟨8, 0, 0, 0, 0, 0, 0, 0, 0, "yahoo", 0⟩] ∧
      4 ∈ dates
        [⟨4, 0, 0, 0, 0, 0, 0, 0, 0, "yahoo", 0⟩,
         ⟨8, 0, 0, 0, 0, 0, 0, 0, 0, "yahoo", 0⟩] ∧
      4 ∉ dates (reconcile false
        [⟨1, 0, 0, 0, 0, 0, 0, 0, 0, "cache", 0⟩,
         ⟨5, 0, 0, 0, 0, 0, 0, 0, 0, "cache", 0⟩]
        [⟨4, 0, 0, 0, 0, 0, 0, 0, 0, "yahoo", 0⟩,
         ⟨8, 0, 0, 0, 0, 0, 0, 0, 0, "yahoo", 0⟩] 3 10).rows) := by
  decide

/-- Claim C4 (amended): with force=False and a readable, covering cache (by its
earliest/latest date), no provider call is made and the cached rows
restricted to [start, end] are used; otherwise every issued provider call
stays within the requested range and strictly outside the cached hull
(before cache-start and/or after cache-end); and when the cache is
gap-free on its hull and the provider has data for every requested date,
the merged series covers the full requested range. -/
theorem cache_sufficiency_reconcile (cache avail : List PriceRow) (s e : Nat)
    (hC : StrictByDate cache) (hA : StrictByDate avail) (hne : cache ≠ []) :
    ((minDate cache ≤ s ∧ e ≤ maxDate cache) →
      (reconcile false cache avail s e).calls = [] ∧
      (reconcile false cache avail s e).rows = cache.filter (inR s e)) ∧
    (∀ c ∈ (reconcile false cache avail s e).calls,
      (s ≤ c.1 ∧ c.2 ≤ e) ∧ (c.2 < minDate cache ∨ maxDate cache < c.1)) ∧
    ((∀ d, minDate cache ≤ d → d ≤ maxDate cache → d ∈ dates cache) →
      (∀ d, s ≤ d → d ≤ e → d ∈ dates avail) →
      ∀ d, s ≤ d → d ≤ e → d ∈ dates (reconcile false cache avail s e).rows) := by
  refine ⟨fun hcov => ?_, ?_, ?_⟩
  · rw [reconcile_covered avail hne hcov]
    exact ⟨rfl, rfl⟩
  · by_cases hcov : minDate cache ≤ s ∧ e ≤ maxDate cache
    · rw [reconcile_covered avail hne hcov]
      intro c hc
      cases hc
    · rw [reconcile_refill avail hne hcov, refill_calls]
      intro c hc
      rcases List.mem_append.mp hc with hpre | hpost
      · by_cases hifp : s < minDate cache
        · rw [if_pos hifp] at hpre
          rcases List.mem_cons.mp hpre with rfl | h
          · refine ⟨⟨Nat.le_refl s, Nat.min_le_right _ _⟩, Or.inl ?_⟩
            exact Nat.lt_of_le_of_lt (Nat.min_le_left _ _)
              (Nat.sub_lt (Nat.lt_of_le_of_lt (Nat.zero_le s) hifp) Nat.one_pos)
          · cases h
        · rw [if_neg hifp] at hpre
          cases hpre
      · by_cases hifq : maxDate cache < e
        · rw [if_pos hifq] at hpost
          rcases List.mem_cons.mp hpost with rfl | h
          · refine ⟨⟨Nat.le_trans (Nat.le_max_right _ _) (Nat.le_refl _), Nat.le_refl e⟩,
              Or.inr ?_⟩
            exact Nat.lt_of_lt_of_le (Nat.lt_succ_self _) (Nat.le_max_left _ _)
          · cases h
        · rw [if_neg hifq] at hpost
          cases hpost
  · intro hfull havail d hd1 hd2
    by_cases hcov : minDate cache ≤ s ∧ e ≤ maxDate cache
    · rw [reconcile_covered avail hne hcov]
      have hdc : d ∈ dates cache :=
        hfull d (Nat.le_trans hcov.1 hd1) (Nat.le_trans hd2 hcov.2)
      rcases mem_dates.mp hdc with ⟨r, hr, rfl⟩
      refine mem_dates.mpr ⟨r, List.mem_filter.mpr ⟨hr, ?_⟩, rfl⟩
      simp only [inR, decide_eq_true_eq]
      exact ⟨hd1, hd2⟩
    · rw [reconcile_refill avail hne hcov, refill_rows]
      by_cases hdlo : d < minDate cache
      · have hs : s < minDate cache := Nat.lt_of_le_of_lt hd1 hdlo
        rcases mem_dates.mp (havail d hd1 hd2) with ⟨q, hq, rfl⟩
        have hqf : q ∈ (refill cache avail s e).fetched := by
          rw [refill_fetched, if_pos hs]
          refine List.mem_append.mpr (Or.inl (mem_fetch.mpr ⟨hq, hd1, ?_⟩))
          exact Nat.le_min.mpr ⟨Nat.le_sub_one_of_lt hdlo, hd2⟩
        exact mem_dates.mpr ⟨q, mem_mergeFetched.mpr (Or.inr hqf), rfl⟩
      · by_cases hdhi : maxDate cache < d
        · have he : maxDate cache < e := Nat.lt_of_lt_of_le hdhi hd2
          rcases mem_dates.mp (havail d hd1 hd2) with ⟨q, hq, rfl⟩
          have hqf : q ∈ (refill cache avail s e).fetched := by
            rw [refill_fetched, if_pos he]
            refine List.mem_append.mpr (Or.inr (mem_fetch.mpr ⟨hq, ?_, hd2⟩))
            exact Nat.max_le.mpr ⟨Nat.succ_le_of_lt hdhi, hd1⟩
          exact mem_dates.mpr ⟨q, mem_mergeFetched.mpr (Or.inr hqf), rfl⟩
        · have hdc : d ∈ dates cache :=
            hfull d (Nat.le_of_not_lt hdlo) (Nat.le_of_not_lt hdhi)
          rcases mem_dates.mp hdc with ⟨r, hr, rfl⟩
          by_cases hdF : r.date ∈ dates (refill cache avail s e).fetched
          · rcases mem_dates.mp hdF with ⟨q, hq, hqd⟩
            exact mem_dates.mpr ⟨q, mem_mergeFetched.mpr (Or.inr hq), hqd⟩
          · refine mem_dates.mpr ⟨r, mem_mergeFetched.mpr (Or.inl ⟨?_, hdF⟩), rfl⟩
            refine List.mem_filter.mpr ⟨hr, ?_⟩
            simp only [inR, decide_eq_true_eq]
            exact ⟨hd1, hd2⟩

/-- Claim C4 witness: a concrete covering cache gives no provider call and the
in-range cache rows. -/
theorem cache_sufficiency_reconcile_witness :
    (reconcile false
        [⟨1, 0, 0, 0, 0, 0, 0, 0, 0, "cache", 0⟩,
         ⟨2, 0, 0, 0, 0, 0, 0, 0, 0, "cache", 0⟩,
         ⟨3, 0, 0, 0, 0, 0, 0, 0, 0, "cache", 0⟩] [] 2 3).calls = [] :=
  ((cache_sufficiency_reconcile
      [⟨1, 0, 0, 0, 0, 0, 0, 0, 0, "cache", 0⟩,
       ⟨2, 0, 0, 0, 0, 0, 0, 0, 0, "cache", 0⟩,
       ⟨3, 0, 0, 0, 0, 0, 0, 0, 0, "cache", 0⟩] [] 2 3
      (by decide) (by decide) (by decide)).1 (by decide)).1

lemma filter_inR_eq_self {l : List PriceRow} {s e : Nat}
    (h : ∀ r ∈ l, s ≤ r.date ∧ r.date ≤ e) : l.filter (inR s e) = l := by
  refine List.filter_eq_self.mpr (fun r hr => ?_)
  simp only [inR, decide_eq_true_eq]
  exact h r hr

/-- Claim C9 counterexample: a sparse cache (rows at dates 1 and 5), a provider
holding rows at dates 4 and 8, and the request range [3, 10].  The first run
fetches only after the cached hull and merges to rows at dates 5 and 8; the
saved series then starts at 5, so the second run — with nothing new available
from the provider — refetches [3, 4], picks up the provider row at date 4,
and produces a strictly larger series: the two runs are not identical. -/
theorem second_run_not_identical :
    StrictByDate
      [⟨1, 0, 0, 0, 0, 0, 0, 0, 0, "cache", 0⟩,
       ⟨5, 0, 0, 0, 0, 0, 0, 0, 0, "cache", 0⟩] ∧
    StrictByDate
      [⟨4, 0, 0, 0, 0, 0, 0, 0, 0, "yahoo", 0⟩,
       ⟨8, 0, 0, 0, 0, 0, 0, 0, 0, "yahoo", 0⟩] ∧
    (reconcile false
        (cacheAfterRun
          [⟨1, 0, 0, 0, 0, 0, 0, 0, 0, "cache", 0⟩,
           ⟨5, 0, 0, 0, 0, 0, 0, 0, 0, "cache", 0⟩]
          (reconcile false
            [⟨1, 0, 0, 0, 0, 0, 0, 0, 0, "cache", 0⟩,
             ⟨5, 0, 0, 0, 0, 0, 0, 0, 0, "cache", 0⟩]
            [⟨4, 0, 0, 0, 0, 0, 0, 0, 0, "yahoo", 0⟩,
             ⟨8, 0, 0, 0, 0, 0, 0, 0, 0, "yahoo", 0⟩] 3 10))
        [⟨4, 0, 0, 0, 0, 0, 0, 0, 0, "yahoo", 0⟩,
         ⟨8, 0, 0, 0, 0, 0, 0, 0, 0, "yahoo", 0⟩] 3 10).rows ≠
      (reconcile false
        [⟨1, 0, 0, 0, 0, 0, 0, 0, 0, "cache", 0⟩,
         ⟨5, 0, 0, 0, 0, 0, 0, 0, 0, "cache", 0⟩]
        [⟨4, 0, 0, 0, 0, 0, 0, 0, 0, "yahoo", 0⟩,
         ⟨8, 0, 0, 0, 0, 0, 0, 0, 0, "yahoo", 0⟩] 3 10).rows := by
  decide

/-- Claim C9 (amended): running the request twice with force=False and save=True,
with no new data available from the provider between the runs, the second
run's merged series contains every row of the first run's; the two series
are identical whenever the first run fetched nothing new, and also whenever
the first run's merged series already spans the requested range by its
earliest/latest date. -/
theorem second_run_contains_first (cache avail : List PriceRow) (s e : Nat)
    (hC : StrictByDate cache) (hA : StrictByDate avail) :
    (∀ r ∈ (reconcile false cache avail s e).rows,
      r ∈ (reconcile false (cacheAfterRun cache (reconcile false cache avail s e))
            avail s e).rows) ∧
    ((reconcile false cache avail s e).fetched = [] →
      (reconcile false (cacheAfterRun cache (reconcile false cache avail s e))
          avail s e).rows = (reconcile false cache avail s e).rows) ∧
    ((reconcile false cache avail s e).rows ≠ [] →
      minDate (reconcile false cache avail s e).rows ≤ s →
      e ≤ maxDate (reconcile false cache avail s e).rows →
      (reconcile false (cacheAfterRun cache (reconcile false cache avail s e))
          avail s e).rows = (reconcile false cache avail s e).rows) := by
  obtain ⟨hM1, hM2, hM3, hMf⟩ := reconcile_inv false cache avail s e hC hA
  have hMs : StrictByDate (reconcile false cache avail s e).rows :=
    strict_of_sorted_nodup hM3 hM1
  by_cases hf : (reconcile false cache avail s e).fetched = []
  · have hcr : cacheAfterRun cache (reconcile false cache avail s e) = cache := by
      simp [cacheAfterRun, hf]
    rw [hcr]
    exact ⟨fun r hr => hr, fun _ => rfl, fun _ _ _ => rfl⟩
  · have hcr : cacheAfterRun cache (reconcile false cache avail s e) =
        (reconcile false cache avail s e).rows := by
      simp [cacheAfterRun, hf]
    rw [hcr]
    have hMne : (reconcile false cache avail s e).rows ≠ [] := by
      rcases List.exists_mem_of_ne_nil _ hf with ⟨r, hr⟩
      exact List.ne_nil_of_mem (hMf r hr)
    refine ⟨?_, fun hcon => absurd hcon hf, fun _ hmin hmax => ?_⟩
    · intro r hr
      by_cases hcov : minDate (reconcile false cache avail s e).rows ≤ s ∧
          e ≤ maxDate (reconcile false cache avail s e).rows
      · rw [reconcile_covered avail hMne hcov, filter_inR_eq_self hM2]
        exact hr
      · rw [reconcile_refill avail hMne hcov, refill_rows, filter_inR_eq_self hM2]
        refine mem_mergeFetched.mpr (Or.inl ⟨hr, fun hmem => ?_⟩)
        rcases mem_dates.mp hmem with ⟨q, hq, hqd⟩
        rcases (refill_fetched_bounds hq).2 with hlo | hhi
        · exact absurd (hqd ▸ minDate_le hMs hr) (Nat.not_le_of_lt hlo)
        · exact absurd (hqd ▸ le_maxDate hMs hr) (Nat.not_le_of_lt hhi)
    · rw [reconcile_covered avail hMne ⟨hmin, hmax⟩, filter_inR_eq_self hM2]

/-- Claim C9 witness: a run from an empty cache followed by a second run from the
saved series returns the identical series (the spanning condition holds). -/
theorem second_run_contains_first_witness :
    (reconcile false
        (cacheAfterRun []
          (reconcile false []
            [⟨3, 0, 0, 0, 0, 0, 0, 0, 0, "yahoo", 0⟩,
             ⟨4, 0, 0, 0, 0, 0, 0, 0, 0, "yahoo", 0⟩] 3 4))
        [⟨3, 0, 0, 0, 0, 0, 0, 0, 0, "yahoo", 0⟩,
         ⟨4, 0, 0, 0, 0, 0, 0, 0, 0, "yahoo", 0⟩] 3 4).rows =
      (reconcile false []
        [⟨3, 0, 0, 0, 0, 0, 0, 0, 0, "yahoo", 0⟩,
         ⟨4, 0, 0, 0, 0, 0, 0, 0, 0, "yahoo", 0⟩] 3 4).rows :=
  (second_run_contains_first []
      [⟨3, 0, 0, 0, 0, 0, 0, 0, 0, "yahoo", 0⟩,
       ⟨4, 0, 0, 0, 0, 0, 0, 0, 0, "yahoo", 0⟩] 3 4
      (by decide) (by decide)).2.2 (by decide) (by decide) (by decide)

lemma mem_fetchFallback {primAvail fbAvail : List PriceRow} {s e : Nat}
    {r : PriceRow} :
    r ∈ fetchFallback primAvail fbAvail s e ↔
      r ∈ fetch primAvail s e ∨
        (r ∈ fetch fbAvail s e ∧ r.date ∉ dates (fetch primAvail s e)) := by
  simp [fetchFallback, List.mem_append, List.mem_filter]

/-- Claim C6: for a composite source the primary provider's rows always appear in
the result; the fallback is consulted for exactly the dates the primary
fails to return; nothing else enters the result; if the primary fails
entirely on the range the result is exactly the fallback fetch of the full
range; and when the fallback can serve every expected business date the
symbol's status is "complete" via the fallback. -/
theorem composite_source_fallback (primAvail fbAvail : List PriceRow)
    (expected : List Nat) (s e : Nat)
    (hP : StrictByDate primAvail) (hF : StrictByDate fbAvail) :
    (∀ r ∈ fetch primAvail s e, r ∈ fetchFallback primAvail fbAvail s e) ∧
    (∀ r ∈ fetch fbAvail s e, r.date ∉ dates (fetch primAvail s e) →
      r ∈ fetchFallback primAvail fbAvail s e) ∧
    (∀ r ∈ fetchFallback primAvail fbAvail s e,
      r ∈ fetch primAvail s e ∨
        (r ∈ fetch fbAvail s e ∧ r.date ∉ dates (fetch primAvail s e))) ∧
    ((∀ r ∈ primAvail, ¬(s ≤ r.date ∧ r.date ≤ e)) →
      fetchFallback primAvail fbAvail s e = fetch fbAvail s e) ∧
    (expected ≠ [] → (∀ d ∈ expected, s ≤ d ∧ d ≤ e) →
      (∀ d ∈ expected, d ∈ dates fbAvail) →
      statusOf (fetchFallback primAvail fbAvail s e)
        (gapReport expected (fetchFallback primAvail fbAvail s e)) = .complete) := by
  have hone : ∀ r ∈ fetch primAvail s e, r ∈ fetchFallback primAvail fbAvail s e :=
    fun r hr => mem_fetchFallback.mpr (Or.inl hr)
  have htwo : ∀ r ∈ fetch fbAvail s e, r.date ∉ dates (fetch primAvail s e) →
      r ∈ fetchFallback primAvail fbAvail s e :=
    fun r hr hnd => mem_fetchFallback.mpr (Or.inr ⟨hr, hnd⟩)
  have hcov : (∀ d ∈ expected, s ≤ d ∧ d ≤ e) → (∀ d ∈ expected, d ∈ dates fbAvail) →
      ∀ d ∈ expected, d ∈ dates (fetchFallback primAvail fbAvail s e) := by
    intro hrange hfb d hd
    rcases mem_dates.mp (hfb d hd) with ⟨q, hq, hqd⟩
    have hqf : q ∈ fetch fbAvail s e :=
      mem_fetch.mpr ⟨hq, hqd ▸ (hrange d hd).1, hqd ▸ (hrange d hd).2⟩
    by_cases hdp : d ∈ dates (fetch primAvail s e)
    · rcases mem_dates.mp hdp with ⟨p, hp, hpd⟩
      exact mem_dates.mpr ⟨p, hone p hp, hpd⟩
    · exact mem_dates.mpr ⟨q, htwo q hqf (hqd ▸ hdp), hqd⟩
  refine ⟨hone, htwo, fun r hr => mem_fetchFallback.mp hr, ?_, ?_⟩
  · intro hfail
    have hprim : fetch primAvail s e = [] := by
      rw [fetch, List.filter_eq_nil_iff]
      intro r hr
      simp only [inR, decide_eq_true_eq]
      exact hfail r hr
    rw [fetchFallback, hprim]
    have hself : (fetch fbAvail s e).filter
        (fun r => decide (r.date ∉ dates ([] : List PriceRow))) = fetch fbAvail s e := by
      refine List.filter_eq_self.mpr (fun r hr => ?_)
      simp [dates]
    rw [hself, List.nil_append]
    exact List.Sorted.insertionSort_eq (sorted_le_of_strict (fetch_strict hF))
  · intro hexp hrange hfb
    have hgaps : gapReport expected (fetchFallback primAvail fbAvail s e) = [] := by
      rw [gapReport, List.filter_eq_nil_iff]
      intro d hd
      simp only [decide_eq_true_eq, Decidable.not_not]
      exact hcov hrange hfb d hd
    rcases List.exists_mem_of_ne_nil expected hexp with ⟨d0, hd0⟩
    rcases mem_dates.mp (hcov hrange hfb d0 hd0) with ⟨r0, hr0, _⟩
    rw [hgaps, statusOf, if_neg (List.ne_nil_of_mem hr0)]
    rfl

/-- Claim C6 witness: the primary fails entirely (no rows in range) and the
fallback serves both expected dates, so the status is "complete". -/
theorem composite_source_fallback_witness :
    statusOf
      (fetchFallback [] [⟨3, 0, 0, 0, 0, 0, 0, 0, 0, "yahoo", 0⟩,
                         ⟨4, 0, 0, 0, 0, 0, 0, 0, 0, "yahoo", 0⟩] 3 4)
      (gapReport [3, 4]
        (fetchFallback [] [⟨3, 0, 0, 0, 0, 0, 0, 0, 0, "yahoo", 0⟩,
                           ⟨4, 0, 0, 0, 0, 0, 0, 0, 0, "yahoo", 0⟩] 3 4)) = .complete :=
  (composite_source_fallback []
      [⟨3, 0, 0, 0, 0, 0, 0, 0, 0, "yahoo", 0⟩,
       ⟨4, 0, 0, 0, 0, 0, 0, 0, 0, "yahoo", 0⟩] [3, 4] 3 4
      (by decide) (by decide)).2.2.2.2 (by decide) (by decide) (by decide)

/-- Claim C8 counterexample: with one expected business date and an empty merged
series the error log is non-empty, yet the status is "failed", not "partial"
(the spec itself demands failure precedence for an entirely empty series),
so the claim's "'partial' when the missing list is non-empty" is false as
stated. -/
theorem empty_series_status_not_incomplete :
    gapReport [5] [] ≠ [] ∧
    statusOf [] (gapReport [5] []) ≠ Status.incomplete ∧
    statusOf [] (gapReport [5] []) = Status.failed := by
  decide

/-- Claim C8 (amended): the error log is the ordered sublist of expected business
dates absent from the merged series; the status is "failed" exactly when the
series is empty; and for a non-empty series the status is "complete" exactly
when the error log is empty and "partial" (constructor `incomplete`) exactly
when it is not. -/
theorem gap_report_status (expected : List Nat) (rows : List PriceRow) :
    List.Sublist (gapReport expected rows) expected ∧
    (∀ d, d ∈ gapReport expected rows ↔ d ∈ expected ∧ d ∉ dates rows) ∧
    (statusOf rows (gapReport expected rows) = .failed ↔ rows = []) ∧
    (rows ≠ [] →
      (statusOf rows (gapReport expected rows) = .complete ↔
        gapReport expected rows = []) ∧
      (statusOf rows (gapReport expected rows) = .incomplete ↔
        gapReport expected rows ≠ [])) := by
  refine ⟨List.filter_sublist expected, ?_, ?_, ?_⟩
  · intro d
    simp [gapReport, List.mem_filter]
  · by_cases hr : rows = []
    · simp [statusOf, hr]
    · by_cases hg : gapReport expected rows = [] <;> simp [statusOf, hr, hg]
  · intro hr
    by_cases hg : gapReport expected rows = [] <;> simp [statusOf, hr, hg]

/-- Claim C8 witness: one expected date present in the series gives an empty error
log and status "complete". -/
theorem gap_report_status_witness :
    statusOf [⟨3, 0, 0, 0, 0, 0, 0, 0, 0, "yahoo", 0⟩]
      (gapReport [3] [⟨3, 0, 0, 0, 0, 0, 0, 0, 0, "yahoo", 0⟩]) = .complete :=
  ((gap_report_status [3] [⟨3, 0, 0, 0, 0, 0, 0, 0, 0, "yahoo", 0⟩]).2.2.2
    (by decide)).1.mpr (by decide)

/-- Claim C7: all `n` requests are issued (none dropped) at nondecreasing times;
any rolling 60-second window `[t, t+60)` contains at most `m` of them; and
when `n` exceeds the cap, the request after the first batch is delayed to
second 60 (a blocking wait) while the first goes out at second 0. -/
theorem rate_limiter_window (n m : Nat) (hm : 0 < m) :
    (requestTimes n m).length = n ∧
    List.Pairwise (· ≤ ·) (requestTimes n m) ∧
    (∀ t, ((requestTimes n m).filter
        (fun τ => decide (t ≤ τ ∧ τ < t + 60))).length ≤ m) ∧
    (m < n → 0 ∈ requestTimes n m ∧ 60 ∈ requestTimes n m) := by
  refine ⟨?_, ?_, ?_, ?_⟩
  · rw [requestTimes, List.length_map, List.length_range]
  · rw [requestTimes, List.pairwise_map]
    refine (List.pairwise_lt_range n).imp (fun hij => ?_)
    exact Nat.mul_le_mul_right 60 (Nat.div_le_div_right (Nat.le_of_lt hij))
  · intro t
    rw [requestTimes, List.filter_map, List.length_map]
    by_cases hS : (List.range n).filter
        ((fun τ => decide (t ≤ τ ∧ τ < t + 60)) ∘ (fun i => i / m * 60)) = []
    · rw [hS]
      exact Nat.zero_le m
    · rcases List.exists_mem_of_ne_nil _ hS with ⟨i0, hi0⟩
      have hwin : ∀ j ∈ (List.range n).filter
          ((fun τ => decide (t ≤ τ ∧ τ < t + 60)) ∘ (fun i => i / m * 60)),
          t ≤ j / m * 60 ∧ j / m * 60 < t + 60 := by
        intro j hj
        have := (List.mem_filter.mp hj).2
        simpa using this
      have hkey : ∀ j ∈ (List.range n).filter
          ((fun τ => decide (t ≤ τ ∧ τ < t + 60)) ∘ (fun i => i / m * 60)),
          j / m = i0 / m := by
        intro j hj
        have h1 := hwin j hj
        have h0 := hwin i0 hi0
        have ha : j / m * 60 < i0 / m * 60 + 60 :=
          Nat.lt_of_lt_of_le h1.2 (Nat.add_le_add_right h0.1 60)
        have hb : i0 / m * 60 < j / m * 60 + 60 :=
          Nat.lt_of_lt_of_le h0.2 (Nat.add_le_add_right h1.1 60)
        omega
      have hsub : (List.range n).filter
          ((fun τ => decide (t ≤ τ ∧ τ < t + 60)) ∘ (fun i => i / m * 60)) ⊆
          List.range' (i0 / m * m) m := by
        intro j hj
        have hq := hkey j hj
        rw [List.mem_range'_1, ← hq]
        constructor
        · exact Nat.div_mul_le_self j m
        · have hlt : j < (j / m + 1) * m :=
            (Nat.div_lt_iff_lt_mul hm).mp (Nat.lt_succ_self (j / m))
          rw [Nat.succ_mul] at hlt
          exact hlt
      have hnd : ((List.range n).filter
          ((fun τ => decide (t ≤ τ ∧ τ < t + 60)) ∘ (fun i => i / m * 60))).Nodup :=
        (List.nodup_range n).filter _
      calc ((List.range n).filter
            ((fun τ => decide (t ≤ τ ∧ τ < t + 60)) ∘ (fun i => i / m * 60))).length
          ≤ (List.range' (i0 / m * m) m).length :=
            (List.subperm_of_subset hnd hsub).length_le
        _ = m := List.length_range' ..
  · intro hmn
    constructor
    · have h0 : (0 : Nat) ∈ List.range n :=
        List.mem_range.mpr (Nat.lt_of_le_of_lt (Nat.zero_le m) hmn)
      rw [requestTimes]
      exact List.mem_map.mpr ⟨0, h0, by simp⟩
    · have h1 : m ∈ List.range n := List.mem_range.mpr hmn
      rw [requestTimes]
      exact List.mem_map.mpr ⟨m, h1, by simp [Nat.div_self hm]⟩

/-- Claim C7 witness: seven requests against the source's alphavantage cap of
five per minute: all seven are issued, any 60-second window holds at most
five, and the sixth request waits until second 60. -/
theorem rate_limiter_window_witness :
    (requestTimes 7 MkTreader.init._alphavantage_max_req_per_min).length = 7 ∧
    ((requestTimes 7 MkTreader.init._alphavantage_max_req_per_min).filter
      (fun τ => decide (0 ≤ τ ∧ τ < 0 + 60))).length ≤
        MkTreader.init._alphavantage_max_req_per_min ∧
    60 ∈ requestTimes 7 MkTreader.init._alphavantage_max_req_per_min := by
  have h := rate_limiter_window 7 MkTreader.init._alphavantage_max_req_per_min
    (by decide)
  exact ⟨h.1, h.2.2.1 0, (h.2.2.2 (by decide)).2⟩
